import Mathlib

/-!
# Verification of the Dhaja allocation tool (`app.py`)

A shallow embedding of the allocation core of the tool:

* `find_combination` — the combination finder (`app.py`, lines 6–38): given a
  target headcount and a pool of bookings, try the target variants
  `target, target+1, target-1, …, 1` in order; at each variant first look for a
  single booking, then for a pair (over candidates strictly below the variant),
  returning the first match.
* `processRow` / `processSheets` / `processAllocation` — the allocation driver
  (`app.py`, lines 40–162): coerce inputs to integers, iterate sheets in order
  and rows in order inside each sheet, query the finder against the pool of
  not-yet-allocated bookings, and commit matches by marking bookings allocated.

Machine integers are modelled by `Int` (pandas' `astype(int)` yields signed
integers, and the coercion `to_numeric(...).fillna(0)` maps non-numeric cells
to `0` without clamping negatives).
-/

/-- Allocation status of a booking (`"Not Allocated"` / `"Allocated"`). -/
inductive AllocStatus where
  | notAllocated
  | allocated
deriving DecidableEq, Repr

/-- One record of Book1 as the driver sees it after loading: the
`original_index` key added on line 60, the coerced `No. of Person` value,
and the two tracking columns initialised on lines 48–49. -/
structure BookingRec where
  originalIndex : Nat
  personCount : Int
  status : AllocStatus
  allottedDhaja : Option Int
deriving DecidableEq, Repr

/-- `itertools.combinations(l, 2)`: all pairs of elements taken at distinct
positions, in lexicographic position order. -/
def pairs {α : Type} : List α → List (α × α)
  | [] => []
  | x :: xs => (xs.map fun y => (x, y)) ++ pairs xs

/-- Python's `range(n, 0, -1)` over integers: `[n, n-1, …, 1]`
(empty when `n ≤ 0`). -/
def downTo1 (n : Int) : List Int :=
  (List.range n.toNat).map fun i : Nat => n - (i : Int)

/-- `targets_to_try = [target, target + 1] + list(range(target - 1, 0, -1))`
(line 17). -/
def targets_to_try (target : Int) : List Int :=
  [target, target + 1] ++ downTo1 (target - 1)

/-- Python's `max` over a (nonempty) list; `0` on `[]` is never exercised
because `targets_to_try` is never empty. -/
def pyMax : List Int → Int
  | [] => 0
  | x :: xs => xs.foldl max x

/-- The inner `for b in candidates: if b['No. of Person'] == t` loop
(lines 25–27). -/
def findSingle (t : Int) (cands : List BookingRec) : Option BookingRec :=
  cands.find? fun b => b.personCount = t

/-- The pair loop at variant `t` (lines 32–36): restrict candidates to
`No. of Person < t`, then scan `itertools.combinations(_, 2)` for the first
pair summing to `t`. -/
def findPairStep (t : Int) (cands : List BookingRec) : Option (BookingRec × BookingRec) :=
  (pairs (cands.filter fun b => b.personCount < t)).find?
    fun p => p.1.personCount + p.2.personCount = t

/-- The `for t in targets_to_try` loop (lines 23–36): at each variant, a
single booking is looked for before a pair; the first match is returned. -/
def tryTargets : List Int → List BookingRec → Option (List BookingRec)
  | [], _ => none
  | t :: ts, cands =>
    match findSingle t cands with
    | some b => some [b]
    | none =>
      match findPairStep t cands with
      | some p => some [p.1, p.2]
      | none => tryTargets ts cands

/-- `find_combination(target, available_bookings)` (lines 6–38). -/
def find_combination (target : Int) (available_bookings : List BookingRec) :
    Option (List BookingRec) :=
  let tts := targets_to_try target
  let max_target := pyMax tts
  let candidates := available_bookings.filter fun b => b.personCount ≤ max_target
  tryTargets tts candidates

/-- An input spreadsheet cell that is expected to be numeric: either an
integer value or a non-numeric entry (which `pd.to_numeric(errors='coerce')`
turns into `NaN`). -/
inductive CellValue where
  | num (n : Int)
  | invalid
deriving DecidableEq, Repr

/-- `pd.to_numeric(x, errors='coerce').fillna(0).astype(int)` on one cell
(lines 45 and 85): numeric values pass through, non-numeric become `0`. -/
def coerce : CellValue → Int
  | .num n => n
  | .invalid => 0

/-- One row of a Book2 sheet: its (coercible) `test` cell and its
`New Dhaja No.` value. -/
structure SlotRow where
  test : CellValue
  dhajaNo : Int
deriving DecidableEq, Repr

/-- What the driver records on one Book2 row: the row itself, the matched
booking references `(original_index, No. of Person)` written to the
`Booking i Id` / `Booking i Persons` columns (lines 136–139), and whether
the `BOOKING` column was set to `"Allocated"` (line 147). -/
structure SlotResult where
  row : SlotRow
  refs : List (Nat × Int)
  booked : Bool
deriving DecidableEq, Repr

/-- One sheet of Book2 as loaded: its name, whether it has a `test` column,
and its rows. -/
structure SheetInput where
  name : String
  hasTest : Bool
  rows : List SlotRow
deriving DecidableEq, Repr

/-- The driver's output for one sheet: either the sheet passed through
unmodified because it has no `test` column (lines 80–83), or the per-row
results. -/
inductive SheetOutput where
  | passthrough (rows : List SlotRow)
  | processed (results : List SlotResult)
deriving DecidableEq, Repr

/-- `mark_assigned(booking_idx, dhaja_no)` (lines 64–69): mark the first
booking whose `original_index` equals `idx` as allocated (the Python loop
`break`s after the first hit). -/
def mark_assigned (idx : Nat) (dhaja : Int) : List BookingRec → List BookingRec
  | [] => []
  | b :: bs =>
    if b.originalIndex = idx then
      { b with status := .allocated, allottedDhaja := some dhaja } :: bs
    else
      b :: mark_assigned idx dhaja bs

/-- The unassigned pool recomputed before each row (line 114). -/
def unassigned (bks : List BookingRec) : List BookingRec :=
  bks.filter fun b => b.status = .notAllocated

/-- The commit loop over a match (lines 126–128): mark each matched booking
as assigned, in match order. -/
def commitMatch (dhaja : Int) (bks ms : List BookingRec) : List BookingRec :=
  ms.foldl (fun acc b => mark_assigned b.originalIndex dhaja acc) bks

/-- The body of the per-row loop (lines 104–147): skip rows whose coerced
target is `≤ 0`, otherwise query `find_combination` on the unassigned pool
and commit any match via `mark_assigned`. -/
def processRow (bks : List BookingRec) (row : SlotRow) : List BookingRec × SlotResult :=
  let target := coerce row.test
  if target ≤ 0 then
    (bks, ⟨row, [], false⟩)
  else
    match find_combination target (unassigned bks) with
    | none => (bks, ⟨row, [], false⟩)
    | some ms =>
      (commitMatch row.dhajaNo bks ms,
       ⟨row, ms.map fun b => (b.originalIndex, b.personCount), true⟩)

/-- The row loop over one sheet, threading the booking list. -/
def processRows (bks : List BookingRec) : List SlotRow → List BookingRec × List SlotResult
  | [] => (bks, [])
  | r :: rs =>
    let p := processRow bks r
    let q := processRows p.1 rs
    (q.1, p.2 :: q.2)

/-- The outcome of a whole run: final booking list, per-sheet outputs in
sheet order, and the names of sheets that triggered the missing-`test`
warning (line 81). -/
structure RunResult where
  bookings : List BookingRec
  outputs : List (String × SheetOutput)
  warnings : List String
deriving DecidableEq, Repr

/-- The sheet loop (lines 78–150): a sheet without a `test` column is
warned about and passed through unmodified; otherwise its rows are
processed in order. -/
def processSheets (bks : List BookingRec) : List SheetInput → RunResult
  | [] => ⟨bks, [], []⟩
  | s :: rest =>
    if s.hasTest then
      let p := processRows bks s.rows
      let r := processSheets p.1 rest
      ⟨r.bookings, (s.name, .processed p.2) :: r.outputs, r.warnings⟩
    else
      let r := processSheets bks rest
      ⟨r.bookings, (s.name, .passthrough s.rows) :: r.outputs, s.name :: r.warnings⟩

/-- Loading Book1 (lines 45–61): coerce `No. of Person`, set every status to
`"Not Allocated"` with no allotted dhaja, and key each record by its row
index `original_index`. -/
def initBookings (cells : List CellValue) : List BookingRec :=
  (cells.map coerce).enum.map fun ic => ⟨ic.1, ic.2, .notAllocated, none⟩

/-- `process_allocation` after successful loading (lines 59–162). -/
def processAllocation (cells : List CellValue) (sheets : List SheetInput) : RunResult :=
  processSheets (initBookings cells) sheets

/-! ## Specification-side definitions

`specFind` is written from the specification's words (§4.1), to be compared
with `find_combination` above: preference order
`target, target+1, target-1, …, 1`; at each variant a single booking is
looked for before a pair; pair search at variant `t` only considers bookings
with `person_count < t`; first match in pool iteration order wins. -/

/-- The target variants in the spec's preference order. -/
def specVariants (target : Int) : List Int :=
  target :: (target + 1) :: downTo1 (target - 1)

/-- The spec's search over the variants, directly on the pool (no up-front
pool filtering: the spec calls that filtering a pure optimization). -/
def specTry : List Int → List BookingRec → Option (List BookingRec)
  | [], _ => none
  | t :: ts, pool =>
    match pool.find? (fun b => b.personCount = t) with
    | some b => some [b]
    | none =>
      match (pairs (pool.filter fun b => b.personCount < t)).find?
          (fun p => p.1.personCount + p.2.personCount = t) with
      | some p => some [p.1, p.2]
      | none => specTry ts pool

/-- The combination finder as §4.1 of the spec describes it. -/
def specFind (target : Int) (pool : List BookingRec) : Option (List BookingRec) :=
  specTry (specVariants target) pool

/-- A sum `t` is achievable from a pool by a 1- or 2-element subset. -/
def achievable (t : Int) (pool : List BookingRec) : Prop :=
  (∃ b ∈ pool, b.personCount = t) ∨
    (∃ p ∈ pairs pool, p.1.personCount + p.2.personCount = t)

/-- Sum of the headcounts of a match returned by the finder. -/
def sumPC (ms : List BookingRec) : Int :=
  (ms.map BookingRec.personCount).sum

/-- Sum of the headcounts recorded on a slot result. -/
def sumRefs (res : SlotResult) : Int :=
  (res.refs.map Prod.snd).sum

/-- The booking-list state after processing a list of rows. -/
def rowsState (bks : List BookingRec) (rows : List SlotRow) : List BookingRec :=
  (processRows bks rows).1

/-- The booking-list state just before sheet `i` of a run is processed. -/
def stateBeforeSheet (cells : List CellValue) (sheets : List SheetInput) (i : Nat) :
    List BookingRec :=
  (processSheets (initBookings cells) (sheets.take i)).bookings

/-- All booking ids recorded in one sheet's output. -/
def sheetRefIds : SheetOutput → List Nat
  | .passthrough _ => []
  | .processed rs => (rs.map fun r => r.refs.map Prod.fst).flatten

/-- All booking ids recorded across a whole run, in commit order. -/
def runRefIds (outs : List (String × SheetOutput)) : List Nat :=
  (outs.map fun o => sheetRefIds o.2).flatten

/-- The load-time key and headcount of a booking, which marking never
changes. -/
def bookingKey (b : BookingRec) : Nat × Int :=
  (b.originalIndex, b.personCount)

/-- Some booking with this `original_index` is currently allocated. -/
def idAllocated (bks : List BookingRec) (i : Nat) : Prop :=
  ∃ b ∈ bks, b.originalIndex = i ∧ b.status = .allocated

/-- Two successive finder calls on the same arguments, with the pool they
leave behind (nothing commits in between). -/
def callFinderTwice (target : Int) (pool : List BookingRec) :
    Option (List BookingRec) × Option (List BookingRec) × List BookingRec :=
  let r1 := find_combination target pool
  let r2 := find_combination target pool
  (r1, r2, pool)

/-- Overwrite the two driver-owned tracking fields of a booking, leaving its
key and headcount alone. -/
def setTracking (s : AllocStatus) (d : Option Int) (b : BookingRec) : BookingRec :=
  { b with status := s, allottedDhaja := d }

/-! ## Basic list lemmas -/

lemma mem_pairs {α : Type} {p : α × α} : ∀ {l : List α}, p ∈ pairs l → p.1 ∈ l ∧ p.2 ∈ l
  | [], h => by simp [pairs] at h
  | x :: xs, h => by
    simp only [pairs, List.mem_append, List.mem_map] at h
    rcases h with ⟨y, hy, rfl⟩ | h
    · exact ⟨List.mem_cons_self x xs, List.mem_cons_of_mem x hy⟩
    · have := mem_pairs h
      exact ⟨List.mem_cons_of_mem x this.1, List.mem_cons_of_mem x this.2⟩

lemma pairs_nil {α : Type} : pairs ([] : List α) = [] := rfl

lemma pairs_cons {α : Type} (x : α) (xs : List α) :
    pairs (x :: xs) = (xs.map fun y => (x, y)) ++ pairs xs := rfl

lemma pairs_filter {α : Type} (q : α → Bool) :
    ∀ l : List α, pairs (l.filter q) = (pairs l).filter fun p => q p.1 && q p.2
  | [] => rfl
  | x :: xs => by
    by_cases hx : q x = true
    · rw [List.filter_cons, if_pos hx, pairs_cons, pairs_cons, List.filter_append,
        pairs_filter q xs, List.filter_map]
      congr 1
      congr 1
      apply List.filter_congr
      intro y _
      simp [Function.comp_def, hx]
    · rw [List.filter_cons, if_neg hx, pairs_cons, List.filter_append, pairs_filter q xs]
      have h0 : List.filter (fun p => q p.1 && q p.2) (xs.map fun y => (x, y)) = [] := by
        have hx' : q x = false := by simpa using hx
        simp [List.filter_map, Function.comp_def, hx']
      rw [h0, List.nil_append]

lemma find?_of_filter {α : Type} {p q : α → Bool} :
    ∀ {l : List α}, (∀ x ∈ l, p x = true → q x = true) →
      (l.filter q).find? p = l.find? p
  | [], _ => rfl
  | x :: xs, h => by
    by_cases hp : p x = true
    · have hq : q x = true := h x (List.mem_cons_self x xs) hp
      rw [List.filter_cons, if_pos hq]
      simp [List.find?_cons, hp]
    · have hrec := find?_of_filter (l := xs) fun y hy => h y (List.mem_cons_of_mem x hy)
      by_cases hq : q x = true
      · rw [List.filter_cons, if_pos hq]
        simp only [List.find?_cons]
        rw [Bool.not_eq_true] at hp
        rw [hp]
        exact hrec
      · rw [List.filter_cons, if_neg hq, hrec, List.find?_cons]
        rw [Bool.not_eq_true] at hp
        rw [hp]

lemma pairs_map_ne {α β : Type} (f : α → β) :
    ∀ {l : List α}, (l.map f).Nodup → ∀ p ∈ pairs l, f p.1 ≠ f p.2
  | [], _, p, hp => by simp [pairs_nil] at hp
  | x :: xs, h, p, hp => by
    rw [List.map_cons, List.nodup_cons] at h
    rw [pairs_cons, List.mem_append] at hp
    rcases hp with hp | hp
    · rcases List.mem_map.mp hp with ⟨y, hy, rfl⟩
      intro hfe
      exact h.1 (hfe ▸ List.mem_map_of_mem f hy)
    · exact pairs_map_ne f h.2 p hp

lemma mem_downTo1 {n t : Int} : t ∈ downTo1 n ↔ 1 ≤ t ∧ t ≤ n := by
  unfold downTo1
  rw [List.mem_map]
  constructor
  · rintro ⟨i, hi, rfl⟩
    rw [List.mem_range] at hi
    omega
  · rintro ⟨h1, h2⟩
    refine ⟨(n - t).toNat, List.mem_range.mpr ?_, ?_⟩
    · omega
    · omega

lemma downTo1_sorted (n : Int) : (downTo1 n).Pairwise (fun a b => b < a) := by
  unfold downTo1
  exact List.Pairwise.map (R := (· < · : Nat → Nat → Prop))
    (S := fun a b : Int => b < a) (fun i : Nat => n - (i : Int))
    (fun a b hab => by dsimp only; omega) (List.pairwise_lt_range n.toNat)

/-! ## The list of target variants -/

lemma foldl_max_of_le : ∀ {l : List Int} {a : Int}, (∀ x ∈ l, x ≤ a) → l.foldl max a = a
  | [], _, _ => rfl
  | x :: xs, a, h => by
    rw [List.foldl_cons, max_eq_left (h x (List.mem_cons_self x xs))]
    exact foldl_max_of_le fun y hy => h y (List.mem_cons_of_mem x hy)

lemma targets_cons (T : Int) : targets_to_try T = T :: (T + 1) :: downTo1 (T - 1) := rfl

lemma pyMax_targets (T : Int) : pyMax (targets_to_try T) = T + 1 := by
  rw [targets_cons]
  show ((T + 1) :: downTo1 (T - 1)).foldl max T = T + 1
  rw [List.foldl_cons, max_eq_right (by omega : T ≤ T + 1)]
  exact foldl_max_of_le fun x hx => by
    have := mem_downTo1.mp hx
    omega

lemma mem_targets {T t : Int} (hT : 1 ≤ T) : t ∈ targets_to_try T ↔ 1 ≤ t ∧ t ≤ T + 1 := by
  rw [targets_cons]
  simp only [List.mem_cons, mem_downTo1]
  omega

lemma targets_pairwise (T : Int) :
    (targets_to_try T).Pairwise (fun a b => a ≤ T - 1 → b < a) := by
  rw [targets_cons, List.pairwise_cons, List.pairwise_cons]
  refine ⟨?_, ?_, ?_⟩
  · intro b _ habs
    omega
  · intro b _ habs
    omega
  · exact List.Pairwise.imp (fun h => fun _ => h) (downTo1_sorted (T - 1))

lemma targets_split_lt {T t : Int} {ts₁ ts₂ : List Int}
    (hsplit : targets_to_try T = ts₁ ++ t :: ts₂) (ht : t ≤ T - 1) :
    ∀ u ∈ ts₂, u < t := by
  have hp := targets_pairwise T
  rw [hsplit, List.pairwise_append] at hp
  intro u hu
  exact (List.pairwise_cons.mp hp.2.1).1 u hu ht

lemma mem_targets_before {T t u : Int} {ts₁ ts₂ : List Int}
    (hsplit : targets_to_try T = ts₁ ++ t :: ts₂) (ht : t ≤ T - 1)
    (hu : u ∈ targets_to_try T) (hut : t < u) : u ∈ ts₁ := by
  rw [hsplit] at hu
  rcases List.mem_append.mp hu with h | h
  · exact h
  · rcases List.mem_cons.mp h with rfl | h
    · omega
    · have := targets_split_lt hsplit ht u h
      omega

lemma mem_targets_le {T t : Int} (h : t ∈ targets_to_try T) : t ≤ T + 1 := by
  rw [targets_cons] at h
  rcases List.mem_cons.mp h with rfl | h
  · omega
  · rcases List.mem_cons.mp h with rfl | h
    · omega
    · have := mem_downTo1.mp h
      omega

/-! ## The pool filter does not affect the search -/

lemma findSingle_filter {T t : Int} (pool : List BookingRec) (ht : t ≤ T + 1) :
    findSingle t (pool.filter fun b => b.personCount ≤ T + 1) = findSingle t pool := by
  unfold findSingle
  apply find?_of_filter
  intro b _ hb
  simp only [decide_eq_true_eq] at hb ⊢
  omega

lemma findPairStep_filter {T t : Int} (pool : List BookingRec) (ht : t ≤ T + 1) :
    findPairStep t (pool.filter fun b => b.personCount ≤ T + 1) = findPairStep t pool := by
  unfold findPairStep
  congr 1
  congr 1
  rw [List.filter_filter]
  apply List.filter_congr
  intro b _
  rcases lt_or_ge b.personCount t with h | h
  · have h2 : b.personCount ≤ T + 1 := by omega
    simp [h, h2]
  · have h2 : ¬ b.personCount < t := not_lt.mpr h
    simp [h2]

lemma find_combination_eq_tryTargets (T : Int) (pool : List BookingRec) :
    find_combination T pool =
      tryTargets (targets_to_try T) (pool.filter fun b => b.personCount ≤ T + 1) := by
  show tryTargets (targets_to_try T)
      (pool.filter fun b => b.personCount ≤ pyMax (targets_to_try T)) = _
  rw [pyMax_targets]

lemma tryTargets_filter_eq_specTry (T : Int) (pool : List BookingRec) :
    ∀ ts : List Int, (∀ t ∈ ts, t ≤ T + 1) →
      tryTargets ts (pool.filter fun b => b.personCount ≤ T + 1) = specTry ts pool
  | [], _ => rfl
  | t :: ts, h => by
    have ht : t ≤ T + 1 := h t (List.mem_cons_self t ts)
    have hrec := tryTargets_filter_eq_specTry T pool ts
      fun u hu => h u (List.mem_cons_of_mem t hu)
    simp only [tryTargets, specTry]
    rw [findSingle_filter pool ht, findPairStep_filter pool ht, hrec]
    unfold findSingle findPairStep
    rfl

/-! ## Structure of the search outcome -/

lemma tryTargets_eq_none_iff {ts : List Int} {cands : List BookingRec} :
    tryTargets ts cands = none ↔
      ∀ t ∈ ts, findSingle t cands = none ∧ findPairStep t cands = none := by
  induction ts with
  | nil => simp [tryTargets]
  | cons t ts ih =>
    simp only [tryTargets]
    cases h1 : findSingle t cands with
    | some b => simp [h1, List.forall_mem_cons]
    | none =>
      cases h2 : findPairStep t cands with
      | some p => simp [h1, h2, List.forall_mem_cons]
      | none => simp [h1, h2, List.forall_mem_cons, ih]

lemma tryTargets_eq_some :
    ∀ {ts : List Int} {cands ms : List BookingRec}, tryTargets ts cands = some ms →
      ∃ ts₁ t ts₂, ts = ts₁ ++ t :: ts₂ ∧
        (∀ u ∈ ts₁, findSingle u cands = none ∧ findPairStep u cands = none) ∧
        ((∃ b, findSingle t cands = some b ∧ ms = [b]) ∨
         (findSingle t cands = none ∧
           ∃ p, findPairStep t cands = some p ∧ ms = [p.1, p.2]))
  | [], cands, ms, h => by simp [tryTargets] at h
  | t :: ts, cands, ms, h => by
    simp only [tryTargets] at h
    cases h1 : findSingle t cands with
    | some b =>
      rw [h1] at h
      exact ⟨[], t, ts, rfl, by simp, Or.inl ⟨b, h1, (Option.some.inj h).symm⟩⟩
    | none =>
      rw [h1] at h
      cases h2 : findPairStep t cands with
      | some p =>
        rw [h2] at h
        exact ⟨[], t, ts, rfl, by simp, Or.inr ⟨h1, p, h2, (Option.some.inj h).symm⟩⟩
      | none =>
        rw [h2] at h
        obtain ⟨ts₁, u, ts₂, heq, hall, hmatch⟩ := tryTargets_eq_some h
        refine ⟨t :: ts₁, u, ts₂, by rw [heq]; rfl, ?_, hmatch⟩
        intro v hv
        rcases List.mem_cons.mp hv with rfl | hv
        · exact ⟨h1, h2⟩
        · exact hall v hv

lemma findSingle_out {t : Int} {cands : List BookingRec} {b : BookingRec}
    (h : findSingle t cands = some b) : b ∈ cands ∧ b.personCount = t :=
  ⟨List.mem_of_find?_eq_some h, by simpa using List.find?_some h⟩

lemma findPairStep_out {t : Int} {cands : List BookingRec} {p : BookingRec × BookingRec}
    (h : findPairStep t cands = some p) :
    p ∈ pairs (cands.filter fun b => b.personCount < t) ∧
      p.1.personCount + p.2.personCount = t :=
  ⟨List.mem_of_find?_eq_some h, by simpa using List.find?_some h⟩

lemma sumPC_single (b : BookingRec) : sumPC [b] = b.personCount := by
  simp [sumPC]

lemma sumPC_pair (a b : BookingRec) : sumPC [a, b] = a.personCount + b.personCount := by
  simp [sumPC]

lemma find_combination_shape {T : Int} {pool ms : List BookingRec}
    (h : find_combination T pool = some ms) :
    ∃ t ∈ targets_to_try T, sumPC ms = t ∧
      ((∃ b, ms = [b] ∧ b ∈ pool ∧ b.personCount = t) ∨
       (∃ a b, ms = [a, b] ∧ (a, b) ∈ pairs pool ∧ a ∈ pool ∧ b ∈ pool ∧
         a.personCount + b.personCount = t ∧
         0 < a.personCount ∧ a.personCount < t ∧
         0 < b.personCount ∧ b.personCount < t)) := by
  rw [find_combination_eq_tryTargets] at h
  obtain ⟨ts₁, t, ts₂, heq, -, hmatch⟩ := tryTargets_eq_some h
  have htmem : t ∈ targets_to_try T := by
    rw [heq]
    exact List.mem_append_right ts₁ (List.mem_cons_self t ts₂)
  rcases hmatch with ⟨b, hb, rfl⟩ | ⟨-, p, hp, rfl⟩
  · obtain ⟨hbc, hbt⟩ := findSingle_out hb
    exact ⟨t, htmem, by rw [sumPC_single, hbt],
      Or.inl ⟨b, rfl, (List.mem_filter.mp hbc).1, hbt⟩⟩
  · obtain ⟨hpmem, hpsum⟩ := findPairStep_out hp
    rw [pairs_filter] at hpmem
    rw [List.mem_filter] at hpmem
    obtain ⟨hpmem, hplt⟩ := hpmem
    rw [pairs_filter, List.mem_filter] at hpmem
    obtain ⟨hppool, hple⟩ := hpmem
    have h1lt : p.1.personCount < t := by
      have := Bool.and_elim_left hplt
      simpa using this
    have h2lt : p.2.personCount < t := by
      have := Bool.and_elim_right hplt
      simpa using this
    have hmem := mem_pairs hppool
    refine ⟨t, htmem, by rw [sumPC_pair, hpsum],
      Or.inr ⟨p.1, p.2, rfl, hppool, hmem.1, hmem.2, hpsum, by omega, h1lt, by omega, h2lt⟩⟩

lemma find_combination_pos {T : Int} {pool ms : List BookingRec} (hT : 1 ≤ T)
    (h : find_combination T pool = some ms) :
    ∀ b ∈ ms, 1 ≤ b.personCount := by
  obtain ⟨t, htmem, -, hcase⟩ := find_combination_shape h
  have ht1 : 1 ≤ t := ((mem_targets hT).mp htmem).1
  rcases hcase with ⟨b, rfl, -, hbt⟩ | ⟨a, b, rfl, -, -, -, -, ha, -, hb, -⟩
  · intro c hc
    rcases List.mem_cons.mp hc with rfl | hc
    · omega
    · simp at hc
  · intro c hc
    rcases List.mem_cons.mp hc with rfl | hc
    · omega
    · rcases List.mem_cons.mp hc with rfl | hc
      · omega
      · simp at hc

lemma find_combination_achievable {T : Int} {pool ms : List BookingRec} (hT : 1 ≤ T)
    (h : find_combination T pool = some ms) :
    achievable (sumPC ms) (pool.filter fun b => 0 ≤ b.personCount) := by
  obtain ⟨t, htmem, hsum, hcase⟩ := find_combination_shape h
  have ht1 : 1 ≤ t := ((mem_targets hT).mp htmem).1
  rw [hsum]
  rcases hcase with ⟨b, rfl, hbpool, hbt⟩ | ⟨a, b, rfl, hpp, -, -, hab, ha, -, hb, -⟩
  · exact Or.inl ⟨b, List.mem_filter.mpr ⟨hbpool, by simp; omega⟩, hbt⟩
  · refine Or.inr ⟨(a, b), ?_, hab⟩
    rw [pairs_filter, List.mem_filter]
    refine ⟨hpp, ?_⟩
    simp only [Bool.and_eq_true, decide_eq_true_eq]
    omega

lemma not_achievable_of_steps {T t : Int} {pool : List BookingRec}
    (ht : t ≤ T + 1)
    (h1 : findSingle t (pool.filter fun b => b.personCount ≤ T + 1) = none)
    (h2 : findPairStep t (pool.filter fun b => b.personCount ≤ T + 1) = none) :
    ¬ achievable t (pool.filter fun b => 0 ≤ b.personCount) := by
  unfold findSingle at h1
  rw [List.find?_eq_none] at h1
  intro hach
  have hnosingle : ∀ b ∈ pool, b.personCount ≠ t := by
    intro b hb hbt
    have hmem : b ∈ pool.filter fun x => x.personCount ≤ T + 1 :=
      List.mem_filter.mpr ⟨hb, by simp; omega⟩
    have hx := h1 b hmem
    simp only [decide_eq_true_eq] at hx
    exact hx hbt
  rcases hach with ⟨b, hb, hpc⟩ | ⟨p, hp, hsum⟩
  · exact hnosingle b (List.mem_filter.mp hb).1 hpc
  · rw [pairs_filter, List.mem_filter] at hp
    obtain ⟨hppool, hnn⟩ := hp
    simp only [Bool.and_eq_true, decide_eq_true_eq] at hnn
    have hmem := mem_pairs hppool
    have h1ne : p.1.personCount ≠ t := hnosingle p.1 hmem.1
    have h2ne : p.2.personCount ≠ t := hnosingle p.2 hmem.2
    have h1lt : p.1.personCount < t := by omega
    have h2lt : p.2.personCount < t := by omega
    unfold findPairStep at h2
    rw [List.find?_eq_none] at h2
    have hpcands : p ∈ pairs ((pool.filter fun b => b.personCount ≤ T + 1).filter
        fun b => b.personCount < t) := by
      rw [pairs_filter, List.mem_filter]
      refine ⟨?_, ?_⟩
      · rw [pairs_filter, List.mem_filter]
        refine ⟨hppool, ?_⟩
        simp only [Bool.and_eq_true, decide_eq_true_eq]
        omega
      · simp only [Bool.and_eq_true, decide_eq_true_eq]
        omega
    have hx := h2 p hpcands
    simp only [decide_eq_true_eq] at hx
    exact hx hsum

lemma find_combination_minimal {T : Int} {pool ms : List BookingRec} (hT : 1 ≤ T)
    (h : find_combination T pool = some ms) (hunder : sumPC ms ≤ T - 1)
    {u : Int} (hu1 : 1 ≤ u) (huT : u ≤ T + 1) (hlt : sumPC ms < u) :
    ¬ achievable u (pool.filter fun b => 0 ≤ b.personCount) := by
  rw [find_combination_eq_tryTargets] at h
  obtain ⟨ts₁, t, ts₂, heq, hall, hmatch⟩ := tryTargets_eq_some h
  have hsum : sumPC ms = t := by
    rcases hmatch with ⟨b, hb, rfl⟩ | ⟨-, p, hp, rfl⟩
    · rw [sumPC_single, (findSingle_out hb).2]
    · rw [sumPC_pair, (findPairStep_out hp).2]
  have humem : u ∈ targets_to_try T := (mem_targets hT).mpr ⟨hu1, huT⟩
  have hu_ts1 : u ∈ ts₁ := mem_targets_before heq (by omega) humem (by omega)
  obtain ⟨hs, hp⟩ := hall u hu_ts1
  exact not_achievable_of_steps (by omega) hs hp

lemma find_combination_none_iff {T : Int} {pool : List BookingRec} (hT : 1 ≤ T) :
    find_combination T pool = none ↔
      ∀ t ∈ targets_to_try T, ¬ achievable t (pool.filter fun b => 0 ≤ b.personCount) := by
  constructor
  · intro h t ht
    rw [find_combination_eq_tryTargets] at h
    obtain ⟨hs, hp⟩ := tryTargets_eq_none_iff.mp h t ht
    exact not_achievable_of_steps (mem_targets_le ht) hs hp
  · intro h
    cases hre : find_combination T pool with
    | none => rfl
    | some ms =>
      exfalso
      obtain ⟨t, htmem, hsum, -⟩ := find_combination_shape hre
      exact h t htmem (hsum ▸ find_combination_achievable hT hre)

/-! ## Marking and committing -/

lemma commitMatch_nil (d : Int) (bks : List BookingRec) : commitMatch d bks [] = bks := rfl

lemma commitMatch_cons (d : Int) (bks : List BookingRec) (m : BookingRec)
    (ms : List BookingRec) :
    commitMatch d bks (m :: ms) =
      commitMatch d (mark_assigned m.originalIndex d bks) ms := rfl

lemma mark_assigned_map_key (i : Nat) (d : Int) :
    ∀ bks : List BookingRec, (mark_assigned i d bks).map bookingKey = bks.map bookingKey
  | [] => rfl
  | b :: bs => by
    unfold mark_assigned
    by_cases hb : b.originalIndex = i
    · rw [if_pos hb]
      simp [bookingKey]
    · rw [if_neg hb]
      simp only [List.map_cons, mark_assigned_map_key i d bs]

lemma mark_assigned_mem {i : Nat} {d : Int} {b' : BookingRec} :
    ∀ {bks : List BookingRec}, b' ∈ mark_assigned i d bks →
      b' ∈ bks ∨ ∃ c ∈ bks, c.originalIndex = i ∧ b' = setTracking .allocated (some d) c
  | [], h => by simp [mark_assigned] at h
  | b :: bs, h => by
    unfold mark_assigned at h
    by_cases hb : b.originalIndex = i
    · rw [if_pos hb] at h
      rcases List.mem_cons.mp h with rfl | h
      · exact Or.inr ⟨b, List.mem_cons_self b bs, hb, rfl⟩
      · exact Or.inl (List.mem_cons_of_mem b h)
    · rw [if_neg hb] at h
      rcases List.mem_cons.mp h with rfl | h
      · exact Or.inl (List.mem_cons_self b' bs)
      · rcases mark_assigned_mem h with h | ⟨c, hc, hci, rfl⟩
        · exact Or.inl (List.mem_cons_of_mem b h)
        · exact Or.inr ⟨c, List.mem_cons_of_mem b hc, hci, rfl⟩

lemma mark_assigned_preserve_ne {i : Nat} {d : Int} {b : BookingRec}
    (hne : b.originalIndex ≠ i) :
    ∀ {bks : List BookingRec}, b ∈ bks → b ∈ mark_assigned i d bks
  | [], h => by simp at h
  | c :: bs, h => by
    unfold mark_assigned
    by_cases hc : c.originalIndex = i
    · rw [if_pos hc]
      rcases List.mem_cons.mp h with rfl | h
      · exact absurd hc hne
      · exact List.mem_cons_of_mem _ h
    · rw [if_neg hc]
      rcases List.mem_cons.mp h with rfl | h
      · exact List.mem_cons_self b _
      · exact List.mem_cons_of_mem _ (mark_assigned_preserve_ne hne h)

lemma mark_assigned_idAllocated_mono {i : Nat} {d : Int} {j : Nat} :
    ∀ {bks : List BookingRec}, idAllocated bks j → idAllocated (mark_assigned i d bks) j
  | [], h => by
    obtain ⟨b, hb, -⟩ := h
    simp at hb
  | b :: bs, h => by
    obtain ⟨c, hc, hcj, hcst⟩ := h
    unfold mark_assigned
    by_cases hb : b.originalIndex = i
    · rw [if_pos hb]
      rcases List.mem_cons.mp hc with rfl | hc
      · exact ⟨setTracking .allocated (some d) c, List.mem_cons_self _ _, hcj, rfl⟩
      · exact ⟨c, List.mem_cons_of_mem _ hc, hcj, hcst⟩
    · rw [if_neg hb]
      rcases List.mem_cons.mp hc with rfl | hc
      · exact ⟨c, List.mem_cons_self _ _, hcj, hcst⟩
      · obtain ⟨c', hc', hcj', hcst'⟩ := mark_assigned_idAllocated_mono ⟨c, hc, hcj, hcst⟩
        exact ⟨c', List.mem_cons_of_mem _ hc', hcj', hcst'⟩

lemma mark_assigned_sets {i : Nat} {d : Int} :
    ∀ {bks : List BookingRec}, (∃ c ∈ bks, c.originalIndex = i) →
      idAllocated (mark_assigned i d bks) i
  | [], h => by
    obtain ⟨c, hc, -⟩ := h
    simp at hc
  | b :: bs, h => by
    unfold mark_assigned
    by_cases hb : b.originalIndex = i
    · rw [if_pos hb]
      exact ⟨setTracking .allocated (some d) b, List.mem_cons_self _ _, hb, rfl⟩
    · rw [if_neg hb]
      obtain ⟨c, hc, hci⟩ := h
      rcases List.mem_cons.mp hc with rfl | hc
      · exact absurd hci hb
      · obtain ⟨c', hc', hcj', hcst'⟩ := mark_assigned_sets ⟨c, hc, hci⟩
        exact ⟨c', List.mem_cons_of_mem _ hc', hcj', hcst'⟩

lemma key_transfer {bks bks' : List BookingRec}
    (h : bks.map bookingKey = bks'.map bookingKey) {c : BookingRec} (hc : c ∈ bks') :
    ∃ c' ∈ bks, c'.originalIndex = c.originalIndex ∧ c'.personCount = c.personCount := by
  have hmem : bookingKey c ∈ bks'.map bookingKey := List.mem_map_of_mem _ hc
  rw [← h] at hmem
  obtain ⟨c', hc', hkey⟩ := List.mem_map.mp hmem
  have h1 := congrArg Prod.fst hkey
  have h2 := congrArg Prod.snd hkey
  exact ⟨c', hc', h1, h2⟩

lemma commitMatch_map_key (d : Int) :
    ∀ (ms bks : List BookingRec),
      (commitMatch d bks ms).map bookingKey = bks.map bookingKey
  | [], bks => rfl
  | m :: ms, bks => by
    rw [commitMatch_cons, commitMatch_map_key d ms, mark_assigned_map_key]

lemma commitMatch_idAllocated_mono (d : Int) :
    ∀ (ms : List BookingRec) {bks : List BookingRec} {j : Nat},
      idAllocated bks j → idAllocated (commitMatch d bks ms) j
  | [], _, _, h => h
  | m :: ms, bks, j, h => by
    rw [commitMatch_cons]
    exact commitMatch_idAllocated_mono d ms (mark_assigned_idAllocated_mono h)

lemma commitMatch_sets (d : Int) :
    ∀ (ms : List BookingRec) {bks : List BookingRec},
      (∀ m ∈ ms, ∃ c ∈ bks, c.originalIndex = m.originalIndex) →
      ∀ m ∈ ms, idAllocated (commitMatch d bks ms) m.originalIndex
  | [], _, _, m, hm => by simp at hm
  | m₀ :: ms, bks, hocc, m, hm => by
    rw [commitMatch_cons]
    rcases List.mem_cons.mp hm with rfl | hm
    · exact commitMatch_idAllocated_mono d ms
        (mark_assigned_sets (hocc m (List.mem_cons_self m ms)))
    · refine commitMatch_sets d ms ?_ m hm
      intro m' hm'
      obtain ⟨c, hc, hci⟩ := hocc m' (List.mem_cons_of_mem m₀ hm')
      obtain ⟨c', hc', hci', -⟩ :=
        key_transfer (mark_assigned_map_key m₀.originalIndex d bks) hc
      exact ⟨c', hc', by rw [hci', hci]⟩

lemma commitMatch_preserve_allocated (d : Int) :
    ∀ (ms : List BookingRec) {bks : List BookingRec} {b : BookingRec},
      (ms.map BookingRec.originalIndex).Nodup →
      (∀ m ∈ ms, ∀ c ∈ bks, c.originalIndex = m.originalIndex →
        c.status = .notAllocated) →
      b ∈ bks → b.status = .allocated → b ∈ commitMatch d bks ms
  | [], _, _, _, _, hb, _ => hb
  | m :: ms, bks, b, hnd, hna, hb, hst => by
    rw [commitMatch_cons]
    have hbne : b.originalIndex ≠ m.originalIndex := by
      intro he
      have := hna m (List.mem_cons_self m ms) b hb he
      rw [hst] at this
      cases this
    rw [List.map_cons, List.nodup_cons] at hnd
    refine commitMatch_preserve_allocated d ms hnd.2 ?_
      (mark_assigned_preserve_ne hbne hb) hst
    intro m' hm' c hc hci
    rcases mark_assigned_mem hc with hc' | ⟨c₀, hc₀, hc₀i, rfl⟩
    · exact hna m' (List.mem_cons_of_mem m hm') c hc' hci
    · exfalso
      apply hnd.1
      rw [← hc₀i]
      have : c₀.originalIndex = m'.originalIndex := hci
      rw [this]
      exact List.mem_map_of_mem _ hm'

lemma commitMatch_preserve_nonpos (d : Int) :
    ∀ (ms : List BookingRec) {bks : List BookingRec},
      (∀ m ∈ ms, ∀ c ∈ bks, c.originalIndex = m.originalIndex → 1 ≤ c.personCount) →
      (∀ b ∈ bks, b.personCount ≤ 0 → b.status = .notAllocated) →
      ∀ b ∈ commitMatch d bks ms, b.personCount ≤ 0 → b.status = .notAllocated
  | [], _, _, hinv, b, hb, hpc => hinv b hb hpc
  | m :: ms, bks, hpos, hinv, b, hb, hpc => by
    rw [commitMatch_cons] at hb
    refine commitMatch_preserve_nonpos d ms ?_ ?_ b hb hpc
    · intro m' hm' c hc hci
      obtain ⟨c₀, hc₀, hc₀i, hc₀pc⟩ :=
        key_transfer (mark_assigned_map_key m.originalIndex d bks).symm hc
      have := hpos m' (List.mem_cons_of_mem m hm') c₀ hc₀ (by rw [hc₀i, hci])
      omega
    · intro b' hb' hb'pc
      rcases mark_assigned_mem hb' with hb'' | ⟨c₀, hc₀, hc₀i, rfl⟩
      · exact hinv b' hb'' hb'pc
      · exfalso
        have := hpos m (List.mem_cons_self m ms) c₀ hc₀ hc₀i
        have hpc' : c₀.personCount ≤ 0 := hb'pc
        omega

lemma mem_unassigned {bks : List BookingRec} {b : BookingRec} :
    b ∈ unassigned bks ↔ b ∈ bks ∧ b.status = .notAllocated := by
  unfold unassigned
  rw [List.mem_filter]
  simp

lemma unassigned_idx_nodup {bks : List BookingRec}
    (h : (bks.map BookingRec.originalIndex).Nodup) :
    ((unassigned bks).map BookingRec.originalIndex).Nodup :=
  ((List.filter_sublist bks).map BookingRec.originalIndex).nodup h

lemma find_combination_mem {T : Int} {pool ms : List BookingRec}
    (h : find_combination T pool = some ms) : ∀ b ∈ ms, b ∈ pool := by
  obtain ⟨t, -, -, hcase⟩ := find_combination_shape h
  rcases hcase with ⟨b, rfl, hb, -⟩ | ⟨a, b, rfl, -, ha, hb, -⟩
  · intro c hc
    rcases List.mem_cons.mp hc with rfl | hc
    · exact hb
    · simp at hc
  · intro c hc
    rcases List.mem_cons.mp hc with rfl | hc
    · exact ha
    · rcases List.mem_cons.mp hc with rfl | hc
      · exact hb
      · simp at hc

lemma find_combination_idx_nodup {T : Int} {pool ms : List BookingRec}
    (hnd : (pool.map BookingRec.originalIndex).Nodup)
    (h : find_combination T pool = some ms) :
    (ms.map BookingRec.originalIndex).Nodup := by
  obtain ⟨t, -, -, hcase⟩ := find_combination_shape h
  rcases hcase with ⟨b, rfl, -, -⟩ | ⟨a, b, rfl, hpp, -, -, -⟩
  · simp
  · have hne := pairs_map_ne BookingRec.originalIndex hnd (a, b) hpp
    simp [hne]

/-! ## Per-row properties of the driver -/

lemma idx_inj {bks : List BookingRec} (hnd : (bks.map BookingRec.originalIndex).Nodup)
    {x y : BookingRec} (hx : x ∈ bks) (hy : y ∈ bks)
    (he : x.originalIndex = y.originalIndex) : x = y :=
  List.inj_on_of_nodup_map hnd hx hy he

lemma map_idx_eq_of_map_key {l₁ l₂ : List BookingRec}
    (h : l₁.map bookingKey = l₂.map bookingKey) :
    l₁.map BookingRec.originalIndex = l₂.map BookingRec.originalIndex := by
  have h1 : ∀ l : List BookingRec,
      l.map BookingRec.originalIndex = (l.map bookingKey).map Prod.fst := by
    intro l
    rw [List.map_map]
    rfl
  rw [h1, h1, h]

lemma processRow_cases (bks : List BookingRec) (row : SlotRow) :
    (coerce row.test ≤ 0 ∧ processRow bks row = (bks, ⟨row, [], false⟩)) ∨
    (1 ≤ coerce row.test ∧
      find_combination (coerce row.test) (unassigned bks) = none ∧
      processRow bks row = (bks, ⟨row, [], false⟩)) ∨
    (∃ ms, 1 ≤ coerce row.test ∧
      find_combination (coerce row.test) (unassigned bks) = some ms ∧
      processRow bks row = (commitMatch row.dhajaNo bks ms,
        ⟨row, ms.map fun b => (b.originalIndex, b.personCount), true⟩)) := by
  unfold processRow
  by_cases h : coerce row.test ≤ 0
  · exact Or.inl ⟨h, by rw [if_pos h]⟩
  · rw [if_neg h]
    cases hfc : find_combination (coerce row.test) (unassigned bks) with
    | none => exact Or.inr (Or.inl ⟨by omega, rfl, rfl⟩)
    | some ms => exact Or.inr (Or.inr ⟨ms, by omega, rfl, rfl⟩)

lemma processRow_map_key (bks : List BookingRec) (row : SlotRow) :
    (processRow bks row).1.map bookingKey = bks.map bookingKey := by
  rcases processRow_cases bks row with ⟨-, he⟩ | ⟨-, -, he⟩ | ⟨ms, -, -, he⟩ <;> rw [he]
  exact commitMatch_map_key row.dhajaNo ms bks

lemma processRow_idx_nodup {bks : List BookingRec} (row : SlotRow)
    (hnd : (bks.map BookingRec.originalIndex).Nodup) :
    ((processRow bks row).1.map BookingRec.originalIndex).Nodup := by
  rw [map_idx_eq_of_map_key (processRow_map_key bks row)]
  exact hnd

lemma processRow_refs {bks : List BookingRec} (row : SlotRow)
    (hnd : (bks.map BookingRec.originalIndex).Nodup) :
    ((processRow bks row).2.refs.map Prod.fst).Nodup ∧
    (∀ i ∈ (processRow bks row).2.refs.map Prod.fst,
      ¬ idAllocated bks i ∧ idAllocated (processRow bks row).1 i) ∧
    (∀ j, idAllocated bks j → idAllocated (processRow bks row).1 j) := by
  rcases processRow_cases bks row with ⟨-, he⟩ | ⟨-, -, he⟩ | ⟨ms, ht, hfc, he⟩ <;> rw [he]
  · exact ⟨by simp, by simp, fun j h => h⟩
  · exact ⟨by simp, by simp, fun j h => h⟩
  · have hrefs : (SlotResult.mk row (ms.map fun b => (b.originalIndex, b.personCount))
        true).refs.map Prod.fst = ms.map BookingRec.originalIndex := by
      simp [List.map_map]
    have hmem : ∀ m ∈ ms, m ∈ unassigned bks := find_combination_mem hfc
    refine ⟨?_, ?_, ?_⟩
    · rw [hrefs]
      exact find_combination_idx_nodup (unassigned_idx_nodup hnd) hfc
    · intro i hi
      rw [hrefs] at hi
      obtain ⟨m, hm, rfl⟩ := List.mem_map.mp hi
      have hmu := mem_unassigned.mp (hmem m hm)
      constructor
      · rintro ⟨c, hc, hci, hcst⟩
        have : c = m := idx_inj hnd hc hmu.1 hci
        rw [this, hmu.2] at hcst
        cases hcst
      · exact commitMatch_sets row.dhajaNo ms
          (fun m' hm' => ⟨m', (mem_unassigned.mp (hmem m' hm')).1, rfl⟩) m hm
    · exact fun j h => commitMatch_idAllocated_mono row.dhajaNo ms h

lemma processRow_nonpos {bks : List BookingRec} (row : SlotRow)
    (hnd : (bks.map BookingRec.originalIndex).Nodup)
    (hinv : ∀ b ∈ bks, b.personCount ≤ 0 → b.status = .notAllocated) :
    ∀ b ∈ (processRow bks row).1, b.personCount ≤ 0 → b.status = .notAllocated := by
  rcases processRow_cases bks row with ⟨-, he⟩ | ⟨-, -, he⟩ | ⟨ms, ht, hfc, he⟩ <;> rw [he]
  · exact hinv
  · exact hinv
  · have hmem : ∀ m ∈ ms, m ∈ unassigned bks := find_combination_mem hfc
    have hpos := find_combination_pos ht hfc
    refine commitMatch_preserve_nonpos row.dhajaNo ms ?_ hinv
    intro m hm c hc hci
    have hmu := mem_unassigned.mp (hmem m hm)
    have : c = m := idx_inj hnd hc hmu.1 hci
    rw [this]
    exact hpos m hm

lemma processRow_preserve_allocated {bks : List BookingRec} (row : SlotRow)
    (hnd : (bks.map BookingRec.originalIndex).Nodup)
    {b : BookingRec} (hb : b ∈ bks) (hst : b.status = .allocated) :
    b ∈ (processRow bks row).1 := by
  rcases processRow_cases bks row with ⟨-, he⟩ | ⟨-, -, he⟩ | ⟨ms, ht, hfc, he⟩ <;> rw [he]
  · exact hb
  · exact hb
  · have hmem : ∀ m ∈ ms, m ∈ unassigned bks := find_combination_mem hfc
    refine commitMatch_preserve_allocated row.dhajaNo ms
      (find_combination_idx_nodup (unassigned_idx_nodup hnd) hfc) ?_ hb hst
    intro m hm c hc hci
    have hmu := mem_unassigned.mp (hmem m hm)
    have : c = m := idx_inj hnd hc hmu.1 hci
    rw [this]
    exact hmu.2

/-! ## Row-list level properties -/

lemma processRows_nil (bks : List BookingRec) : processRows bks [] = (bks, []) := rfl

lemma processRows_cons (bks : List BookingRec) (r : SlotRow) (rs : List SlotRow) :
    processRows bks (r :: rs) =
      ((processRows (processRow bks r).1 rs).1,
       (processRow bks r).2 :: (processRows (processRow bks r).1 rs).2) := rfl

lemma processRows_map_key :
    ∀ (rows : List SlotRow) (bks : List BookingRec),
      (processRows bks rows).1.map bookingKey = bks.map bookingKey
  | [], bks => rfl
  | r :: rs, bks => by
    rw [processRows_cons]
    exact (processRows_map_key rs (processRow bks r).1).trans (processRow_map_key bks r)

lemma processRows_idx_nodup {bks : List BookingRec} (rows : List SlotRow)
    (hnd : (bks.map BookingRec.originalIndex).Nodup) :
    ((processRows bks rows).1.map BookingRec.originalIndex).Nodup := by
  rw [map_idx_eq_of_map_key (processRows_map_key rows bks)]
  exact hnd

lemma processRows_append :
    ∀ (r₁ r₂ : List SlotRow) (bks : List BookingRec),
      processRows bks (r₁ ++ r₂) =
        ((processRows (processRows bks r₁).1 r₂).1,
         (processRows bks r₁).2 ++ (processRows (processRows bks r₁).1 r₂).2)
  | [], r₂, bks => by simp [processRows_nil]
  | r :: rs, r₂, bks => by
    rw [List.cons_append, processRows_cons, processRows_append rs r₂ (processRow bks r).1,
      processRows_cons, List.cons_append]

lemma processRows_refs :
    ∀ (rows : List SlotRow) {bks : List BookingRec},
      (bks.map BookingRec.originalIndex).Nodup →
      ((((processRows bks rows).2.map fun r => r.refs.map Prod.fst).flatten).Nodup ∧
       (∀ i ∈ ((processRows bks rows).2.map fun r => r.refs.map Prod.fst).flatten,
          ¬ idAllocated bks i ∧ idAllocated (processRows bks rows).1 i) ∧
       (∀ j, idAllocated bks j → idAllocated (processRows bks rows).1 j))
  | [], bks, hnd => ⟨by simp [processRows_nil], by simp [processRows_nil], fun _ h => h⟩
  | r :: rs, bks, hnd => by
    obtain ⟨hn1, hs1, hm1⟩ := processRow_refs r hnd
    have hnd1 := processRow_idx_nodup r hnd
    obtain ⟨hn2, hs2, hm2⟩ := processRows_refs rs hnd1
    rw [processRows_cons]
    simp only [List.map_cons, List.flatten_cons, List.mem_append]
    refine ⟨?_, ?_, ?_⟩
    · rw [List.nodup_append]
      refine ⟨hn1, hn2, ?_⟩
      intro i hi1 hi2
      exact (hs2 i hi2).1 ((hs1 i hi1).2)
    · intro i hi
      rcases hi with hi | hi
      · exact ⟨(hs1 i hi).1, hm2 i ((hs1 i hi).2)⟩
      · refine ⟨fun h => (hs2 i hi).1 (hm1 i h), (hs2 i hi).2⟩
    · exact fun j h => hm2 j (hm1 j h)

lemma processRows_nonpos :
    ∀ (rows : List SlotRow) {bks : List BookingRec},
      (bks.map BookingRec.originalIndex).Nodup →
      (∀ b ∈ bks, b.personCount ≤ 0 → b.status = .notAllocated) →
      ∀ b ∈ (processRows bks rows).1, b.personCount ≤ 0 → b.status = .notAllocated
  | [], _, _, hinv => hinv
  | r :: rs, bks, hnd, hinv => by
    rw [processRows_cons]
    exact processRows_nonpos rs (processRow_idx_nodup r hnd) (processRow_nonpos r hnd hinv)

lemma processRows_preserve_allocated :
    ∀ (rows : List SlotRow) {bks : List BookingRec} {b : BookingRec},
      (bks.map BookingRec.originalIndex).Nodup →
      b ∈ bks → b.status = .allocated → b ∈ (processRows bks rows).1
  | [], _, _, _, hb, _ => hb
  | r :: rs, bks, b, hnd, hb, hst => by
    rw [processRows_cons]
    exact processRows_preserve_allocated rs (processRow_idx_nodup r hnd)
      (processRow_preserve_allocated r hnd hb hst) hst

/-! ## Sheet-list level properties -/

lemma processSheets_nil (bks : List BookingRec) : processSheets bks [] = ⟨bks, [], []⟩ := rfl

lemma processSheets_cons_hasTest {s : SheetInput} (h : s.hasTest = true)
    (bks : List BookingRec) (rest : List SheetInput) :
    processSheets bks (s :: rest) =
      ⟨(processSheets (processRows bks s.rows).1 rest).bookings,
       (s.name, .processed (processRows bks s.rows).2) ::
         (processSheets (processRows bks s.rows).1 rest).outputs,
       (processSheets (processRows bks s.rows).1 rest).warnings⟩ := by
  simp [processSheets, h]

lemma processSheets_cons_noTest {s : SheetInput} (h : s.hasTest = false)
    (bks : List BookingRec) (rest : List SheetInput) :
    processSheets bks (s :: rest) =
      ⟨(processSheets bks rest).bookings,
       (s.name, .passthrough s.rows) :: (processSheets bks rest).outputs,
       s.name :: (processSheets bks rest).warnings⟩ := by
  simp [processSheets, h]

lemma processSheets_map_key :
    ∀ (sheets : List SheetInput) (bks : List BookingRec),
      (processSheets bks sheets).bookings.map bookingKey = bks.map bookingKey
  | [], bks => rfl
  | s :: rest, bks => by
    by_cases h : s.hasTest = true
    · rw [processSheets_cons_hasTest h]
      exact (processSheets_map_key rest (processRows bks s.rows).1).trans
        (processRows_map_key s.rows bks)
    · rw [processSheets_cons_noTest (by simpa using h)]
      exact processSheets_map_key rest bks

lemma processSheets_idx_nodup {bks : List BookingRec} (sheets : List SheetInput)
    (hnd : (bks.map BookingRec.originalIndex).Nodup) :
    ((processSheets bks sheets).bookings.map BookingRec.originalIndex).Nodup := by
  rw [map_idx_eq_of_map_key (processSheets_map_key sheets bks)]
  exact hnd

lemma processSheets_append :
    ∀ (s₁ s₂ : List SheetInput) (bks : List BookingRec),
      processSheets bks (s₁ ++ s₂) =
        ⟨(processSheets (processSheets bks s₁).bookings s₂).bookings,
         (processSheets bks s₁).outputs ++
           (processSheets (processSheets bks s₁).bookings s₂).outputs,
         (processSheets bks s₁).warnings ++
           (processSheets (processSheets bks s₁).bookings s₂).warnings⟩
  | [], s₂, bks => by simp [processSheets_nil]
  | s :: rest, s₂, bks => by
    by_cases h : s.hasTest = true
    · rw [List.cons_append, processSheets_cons_hasTest h,
        processSheets_append rest s₂ (processRows bks s.rows).1,
        processSheets_cons_hasTest h]
      simp
    · rw [List.cons_append, processSheets_cons_noTest (by simpa using h),
        processSheets_append rest s₂ bks,
        processSheets_cons_noTest (by simpa using h)]
      simp

lemma processSheets_refs :
    ∀ (sheets : List SheetInput) {bks : List BookingRec},
      (bks.map BookingRec.originalIndex).Nodup →
      ((runRefIds (processSheets bks sheets).outputs).Nodup ∧
       (∀ i ∈ runRefIds (processSheets bks sheets).outputs,
          ¬ idAllocated bks i ∧ idAllocated (processSheets bks sheets).bookings i) ∧
       (∀ j, idAllocated bks j → idAllocated (processSheets bks sheets).bookings j))
  | [], bks, hnd => ⟨by simp [processSheets_nil, runRefIds], by simp [processSheets_nil, runRefIds],
      fun _ h => h⟩
  | s :: rest, bks, hnd => by
    by_cases h : s.hasTest = true
    · obtain ⟨hn1, hs1, hm1⟩ := processRows_refs s.rows hnd
      obtain ⟨hn2, hs2, hm2⟩ := processSheets_refs rest (processRows_idx_nodup s.rows hnd)
      rw [processSheets_cons_hasTest h]
      simp only [runRefIds, List.map_cons, List.flatten_cons, List.mem_append] at *
      refine ⟨?_, ?_, ?_⟩
      · rw [List.nodup_append]
        exact ⟨hn1, hn2, fun i hi1 hi2 => (hs2 i hi2).1 ((hs1 i hi1).2)⟩
      · intro i hi
        rcases hi with hi | hi
        · exact ⟨(hs1 i hi).1, hm2 i ((hs1 i hi).2)⟩
        · exact ⟨fun hx => (hs2 i hi).1 (hm1 i hx), (hs2 i hi).2⟩
      · exact fun j hj => hm2 j (hm1 j hj)
    · obtain ⟨hn2, hs2, hm2⟩ := processSheets_refs rest hnd
      rw [processSheets_cons_noTest (by simpa using h)]
      simp only [runRefIds, List.map_cons, List.flatten_cons, List.mem_append] at *
      refine ⟨?_, ?_, ?_⟩
      · simpa [sheetRefIds] using hn2
      · intro i hi
        rcases hi with hi | hi
        · simp [sheetRefIds] at hi
        · exact hs2 i hi
      · exact hm2

lemma processSheets_nonpos :
    ∀ (sheets : List SheetInput) {bks : List BookingRec},
      (bks.map BookingRec.originalIndex).Nodup →
      (∀ b ∈ bks, b.personCount ≤ 0 → b.status = .notAllocated) →
      ∀ b ∈ (processSheets bks sheets).bookings,
        b.personCount ≤ 0 → b.status = .notAllocated
  | [], _, _, hinv => hinv
  | s :: rest, bks, hnd, hinv => by
    by_cases h : s.hasTest = true
    · rw [processSheets_cons_hasTest h]
      exact processSheets_nonpos rest (processRows_idx_nodup s.rows hnd)
        (processRows_nonpos s.rows hnd hinv)
    · rw [processSheets_cons_noTest (by simpa using h)]
      exact processSheets_nonpos rest hnd hinv

lemma processSheets_preserve_allocated :
    ∀ (sheets : List SheetInput) {bks : List BookingRec} {b : BookingRec},
      (bks.map BookingRec.originalIndex).Nodup →
      b ∈ bks → b.status = .allocated → b ∈ (processSheets bks sheets).bookings
  | [], _, _, _, hb, _ => hb
  | s :: rest, bks, b, hnd, hb, hst => by
    by_cases h : s.hasTest = true
    · rw [processSheets_cons_hasTest h]
      exact processSheets_preserve_allocated rest (processRows_idx_nodup s.rows hnd)
        (processRows_preserve_allocated s.rows hnd hb hst) hst
    · rw [processSheets_cons_noTest (by simpa using h)]
      exact processSheets_preserve_allocated rest hnd hb hst

/-! ## The loaded booking list -/

lemma initBookings_idx (cells : List CellValue) :
    (initBookings cells).map BookingRec.originalIndex = List.range cells.length := by
  unfold initBookings
  rw [List.map_map]
  have h : (BookingRec.originalIndex ∘
      fun ic : Nat × Int => BookingRec.mk ic.1 ic.2 .notAllocated none) = Prod.fst := by
    funext ic
    rfl
  rw [h, List.enum_map_fst, List.length_map]

lemma initBookings_idx_nodup (cells : List CellValue) :
    ((initBookings cells).map BookingRec.originalIndex).Nodup := by
  rw [initBookings_idx]
  exact List.nodup_range cells.length

lemma initBookings_status {cells : List CellValue} :
    ∀ b ∈ initBookings cells, b.status = .notAllocated := by
  intro b hb
  unfold initBookings at hb
  obtain ⟨ic, -, rfl⟩ := List.mem_map.mp hb
  rfl

/-! ## Locating one slot's result inside a run -/

lemma rowsState_nil (bks : List BookingRec) : rowsState bks [] = bks := rfl

lemma rowsState_cons (bks : List BookingRec) (r : SlotRow) (rs : List SlotRow) :
    rowsState bks (r :: rs) = rowsState (processRow bks r).1 rs := rfl

lemma processRows_get :
    ∀ (rows : List SlotRow) (bks : List BookingRec) (k : Nat),
      (processRows bks rows).2[k]? =
        (rows[k]?).map fun r => (processRow (rowsState bks (rows.take k)) r).2
  | [], bks, k => by simp [processRows_nil]
  | r :: rs, bks, 0 => by
    simp [processRows_cons, rowsState_nil]
  | r :: rs, bks, k + 1 => by
    rw [processRows_cons]
    simp only [List.getElem?_cons_succ, List.take_succ_cons]
    rw [processRows_get rs (processRow bks r).1 k]
    simp only [rowsState_cons]

lemma processSheets_get :
    ∀ (sheets : List SheetInput) (bks : List BookingRec) (i : Nat),
      (processSheets bks sheets).outputs[i]? =
        (sheets[i]?).map fun s =>
          (s.name,
            if s.hasTest then
              SheetOutput.processed
                (processRows (processSheets bks (sheets.take i)).bookings s.rows).2
            else SheetOutput.passthrough s.rows)
  | [], bks, i => by simp [processSheets_nil]
  | s :: rest, bks, 0 => by
    by_cases h : s.hasTest = true
    · rw [processSheets_cons_hasTest h]
      simp [h, processSheets_nil]
    · rw [processSheets_cons_noTest (by simpa using h)]
      simp [h, processSheets_nil]
  | s :: rest, bks, i + 1 => by
    by_cases h : s.hasTest = true
    · rw [processSheets_cons_hasTest h]
      simp only [List.getElem?_cons_succ, List.take_succ_cons]
      rw [processSheets_get rest (processRows bks s.rows).1 i]
      have hstate : (processSheets bks (s :: rest.take i)).bookings =
          (processSheets (processRows bks s.rows).1 (rest.take i)).bookings := by
        rw [processSheets_cons_hasTest h]
      simp only [hstate]
    · rw [processSheets_cons_noTest (by simpa using h)]
      simp only [List.getElem?_cons_succ, List.take_succ_cons]
      rw [processSheets_get rest bks i]
      have hstate : (processSheets bks (s :: rest.take i)).bookings =
          (processSheets bks (rest.take i)).bookings := by
        rw [processSheets_cons_noTest (by simpa using h)]
      simp only [hstate]

/-! ## The finder reads only headcounts -/

lemma pairs_map {α β : Type} (f : α → β) :
    ∀ l : List α, pairs (l.map f) = (pairs l).map (Prod.map f f)
  | [] => rfl
  | x :: xs => by
    rw [List.map_cons, pairs_cons, pairs_cons, pairs_map f xs, List.map_append,
      List.map_map, List.map_map]
    rfl

lemma setTracking_pc (s : AllocStatus) (d : Option Int) (b : BookingRec) :
    (setTracking s d b).personCount = b.personCount := rfl

lemma findSingle_map (t : Int) (s : AllocStatus) (d : Option Int)
    (cands : List BookingRec) :
    findSingle t (cands.map (setTracking s d)) =
      (findSingle t cands).map (setTracking s d) := by
  unfold findSingle
  rw [List.find?_map]
  rfl

lemma findPairStep_map (t : Int) (s : AllocStatus) (d : Option Int)
    (cands : List BookingRec) :
    findPairStep t (cands.map (setTracking s d)) =
      (findPairStep t cands).map (Prod.map (setTracking s d) (setTracking s d)) := by
  unfold findPairStep
  rw [List.filter_map, pairs_map, List.find?_map]
  rfl

lemma tryTargets_map (s : AllocStatus) (d : Option Int) :
    ∀ (ts : List Int) (cands : List BookingRec),
      tryTargets ts (cands.map (setTracking s d)) =
        (tryTargets ts cands).map (List.map (setTracking s d))
  | [], _ => rfl
  | t :: ts, cands => by
    simp only [tryTargets, findSingle_map, findPairStep_map, tryTargets_map s d ts cands]
    cases findSingle t cands with
    | some b => rfl
    | none =>
      cases findPairStep t cands with
      | some p => rfl
      | none => rfl

lemma find_combination_map (T : Int) (s : AllocStatus) (d : Option Int)
    (pool : List BookingRec) :
    find_combination T (pool.map (setTracking s d)) =
      (find_combination T pool).map (List.map (setTracking s d)) := by
  rw [find_combination_eq_tryTargets, find_combination_eq_tryTargets,
    List.filter_map]
  have h : ((fun b => decide (b.personCount ≤ T + 1)) ∘ setTracking s d) =
      fun b : BookingRec => decide (b.personCount ≤ T + 1) := by
    funext b
    rfl
  rw [h]
  exact tryTargets_map s d (targets_to_try T) (pool.filter fun b => b.personCount ≤ T + 1)

lemma tryTargets_nil_pool : ∀ ts : List Int, tryTargets ts [] = none
  | [] => rfl
  | _ :: ts => tryTargets_nil_pool ts

/-! ## The claims -/

/-- C1: `find_combination(target, pool)` evaluates the target variants in the
exact order `target, target+1, target-1, target-2, …, 1`, and at each variant
checks single bookings before pairs, returning the first match found; among
candidates at the same (variant, arity) the first in pool iteration order
wins.  Formally, `find_combination` coincides with `specFind`, the search
written from §4.1 of the spec, which tries `specVariants` in order and at
each variant takes the first single (in pool order), then the first pair (in
`itertools.combinations` order over bookings below the variant).  The
statement is proved for every integer target, so in particular for every
`target ≥ 1`. -/
theorem claim_C1 (target : Int) (pool : List BookingRec) :
    find_combination target pool = specFind target pool := by
  rw [find_combination_eq_tryTargets]
  show tryTargets (targets_to_try target) _ = specTry (targets_to_try target) pool
  exact tryTargets_filter_eq_specTry target pool (targets_to_try target)
    fun t ht => mem_targets_le ht

/-- C7: the pre-search pool filter is a pure optimization: removing from the
pool every booking whose headcount exceeds `target + 1` never changes the
result of `find_combination`.  Proved for every integer target, so in
particular for every `target ≥ 1`. -/
theorem claim_C7 (target : Int) (pool : List BookingRec) :
    find_combination target pool =
      find_combination target (pool.filter fun b => b.personCount ≤ target + 1) := by
  rw [find_combination_eq_tryTargets, find_combination_eq_tryTargets,
    List.filter_filter]
  congr 1
  apply List.filter_congr
  intro b _
  cases h : decide (b.personCount ≤ target + 1) <;> simp [h]

/-- C6: the combination finder is pure and idempotent: two successive calls
with the same target and pool return the same result and leave the pool
unchanged (the embedding of the Python function, which only reads
`b['No. of Person']`, is a pure function, so this holds definitionally);
moreover the result does not depend on the driver-owned tracking fields
(allocation status, allotted dhaja) of the pool's bookings: overwriting them
arbitrarily maps the result pointwise. -/
theorem claim_C6 (target : Int) (pool : List BookingRec) :
    (callFinderTwice target pool).1 = (callFinderTwice target pool).2.1 ∧
    (callFinderTwice target pool).2.2 = pool ∧
    ∀ (s : AllocStatus) (d : Option Int),
      find_combination target (pool.map (setTracking s d)) =
        (find_combination target pool).map (List.map (setTracking s d)) :=
  ⟨rfl, rfl, fun s d => find_combination_map target s d pool⟩

/-- C5: a booking whose headcount cell is non-numeric is coerced to
headcount `0` and is never selected as a positive match by
`find_combination` (no member of any returned match has headcount equal to
the coerced value `0`); and a slot whose coerced target is `≤ 0` is skipped
entirely by the driver — state unchanged, no references, not allocated. -/
theorem claim_C5 :
    coerce CellValue.invalid = 0 ∧
    (∀ (target : Int) (pool ms : List BookingRec) (b : BookingRec),
      1 ≤ target → find_combination target pool = some ms → b ∈ ms →
      b.personCount ≠ coerce CellValue.invalid) ∧
    (∀ (bks : List BookingRec) (row : SlotRow),
      coerce row.test ≤ 0 → processRow bks row = (bks, ⟨row, [], false⟩)) := by
  refine ⟨rfl, ?_, ?_⟩
  · intro target pool ms b hT h hb
    have := find_combination_pos hT h b hb
    show b.personCount ≠ 0
    omega
  · intro bks row h
    unfold processRow
    rw [if_pos h]

/-- Witness for C5 at a concrete input: with target `1` and pool
`[(id 0, 0 persons), (id 1, 1 person)]` the finder returns the booking of
headcount `1`, whose headcount differs from the coerced non-numeric value;
and a row whose `test` cell is non-numeric (coerced target `0 ≤ 0`) is
skipped. -/
theorem claim_C5_witness :
    (⟨1, 1, .notAllocated, none⟩ : BookingRec).personCount ≠ coerce CellValue.invalid ∧
    processRow [] ⟨CellValue.invalid, 7⟩ = ([], ⟨⟨CellValue.invalid, 7⟩, [], false⟩) :=
  ⟨claim_C5.2.1 1 [⟨0, 0, .notAllocated, none⟩, ⟨1, 1, .notAllocated, none⟩]
      [⟨1, 1, .notAllocated, none⟩] ⟨1, 1, .notAllocated, none⟩ (by decide) (by decide)
      (by decide),
   claim_C5.2.2 [] ⟨CellValue.invalid, 7⟩ (by decide)⟩

/-- C10: for `target ≥ 1`, every booking in a returned match has
headcount `≥ 1`: a returned single equals the matched variant `t ≥ 1`, and
each element of a returned pair lies strictly between `0` and `t`;
consequently, in every driver run a booking with headcount `≤ 0` (including
negative values, which the load-time coercion does not clamp) never becomes
Allocated. -/
theorem claim_C10 :
    (∀ (target : Int) (pool ms : List BookingRec), 1 ≤ target →
      find_combination target pool = some ms →
      ∃ t ∈ targets_to_try target, 1 ≤ t ∧
        ((∃ b, ms = [b] ∧ b.personCount = t) ∨
         (∃ a b, ms = [a, b] ∧ a.personCount + b.personCount = t ∧
           0 < a.personCount ∧ a.personCount < t ∧
           0 < b.personCount ∧ b.personCount < t)) ∧
        ∀ b ∈ ms, 1 ≤ b.personCount) ∧
    (∀ (cells : List CellValue) (sheets : List SheetInput) (b : BookingRec),
      b ∈ (processAllocation cells sheets).bookings → b.personCount ≤ 0 →
      b.status = .notAllocated) := by
  constructor
  · intro target pool ms hT h
    obtain ⟨t, htmem, -, hcase⟩ := find_combination_shape h
    have ht1 : 1 ≤ t := ((mem_targets hT).mp htmem).1
    refine ⟨t, htmem, ht1, ?_, find_combination_pos hT h⟩
    rcases hcase with ⟨b, rfl, -, hbt⟩ | ⟨a, b, rfl, -, -, -, hab, ha1, ha2, hb1, hb2⟩
    · exact Or.inl ⟨b, rfl, hbt⟩
    · exact Or.inr ⟨a, b, rfl, hab, ha1, ha2, hb1, hb2⟩
  · intro cells sheets b hb hpc
    exact processSheets_nonpos sheets (initBookings_idx_nodup cells)
      (fun b' hb' _ => initBookings_status b' hb') b hb hpc

/-- Witness for C10 at concrete inputs: with target `3` and pool
`[1, 2]` the finder returns a match whose members all have positive
headcount; and in a run whose only booking has headcount `-2`, that booking
ends the run NotAllocated. -/
theorem claim_C10_witness :
    (∃ t ∈ targets_to_try 3, 1 ≤ t ∧
      ((∃ b, [(⟨0, 1, .notAllocated, none⟩ : BookingRec),
              ⟨1, 2, .notAllocated, none⟩] = [b] ∧ b.personCount = t) ∨
       (∃ a b, [(⟨0, 1, .notAllocated, none⟩ : BookingRec),
                ⟨1, 2, .notAllocated, none⟩] = [a, b] ∧
         a.personCount + b.personCount = t ∧
         0 < a.personCount ∧ a.personCount < t ∧
         0 < b.personCount ∧ b.personCount < t)) ∧
      ∀ b ∈ [(⟨0, 1, .notAllocated, none⟩ : BookingRec), ⟨1, 2, .notAllocated, none⟩],
        1 ≤ b.personCount) ∧
    (⟨0, -2, .notAllocated, none⟩ : BookingRec).status = .notAllocated :=
  ⟨claim_C10.1 3 [⟨0, 1, .notAllocated, none⟩, ⟨1, 2, .notAllocated, none⟩]
      [⟨0, 1, .notAllocated, none⟩, ⟨1, 2, .notAllocated, none⟩] (by decide) (by decide),
   claim_C10.2 [CellValue.num (-2)] [⟨"S", true, [⟨CellValue.num 1, 5⟩]⟩]
      ⟨0, -2, .notAllocated, none⟩ (by decide) (by decide)⟩

/-- C8 counterexample to the claim as stated: with pool
`[(id 0, 10 persons), (id 1, -5 persons)]` and target `6`,
`find_combination` returns `none`, yet the 2-element subset `{10, -5}` of
the pool sums to `5`, which is one of the target variants of `6` — so
"returns none exactly when no 1- or 2-element subset of the pool sums to
any variant" fails (the booking with headcount `10 > 7` is removed by the
candidate filter, so the pair is never examined). -/
theorem claim_C8_counterexample :
    find_combination 6 [⟨0, 10, .notAllocated, none⟩, ⟨1, -5, .notAllocated, none⟩] =
      none ∧
    achievable 5 [⟨0, 10, .notAllocated, none⟩, ⟨1, -5, .notAllocated, none⟩] ∧
    (5 : Int) ∈ targets_to_try 6 := by
  refine ⟨by decide, ?_, by decide⟩
  unfold achievable
  decide

/-- C8 (amended): for `target ≥ 1`, `find_combination(target, pool)` returns
`none` exactly when no 1- or 2-element subset of the bookings of the pool
with non-negative headcount sums to any variant in
`{target, target+1, target-1, …, 1}`; in particular it returns `none` on an
empty pool and on a pool in which every headcount exceeds `target + 1`, and
in those cases the driver leaves the slot unallocated with no references
recorded and the booking list unchanged. -/
theorem claim_C8 :
    (∀ (target : Int) (pool : List BookingRec), 1 ≤ target →
      (find_combination target pool = none ↔
        ∀ t ∈ targets_to_try target,
          ¬ achievable t (pool.filter fun b => 0 ≤ b.personCount))) ∧
    (∀ target : Int, find_combination target [] = none) ∧
    (∀ (target : Int) (pool : List BookingRec),
      (∀ b ∈ pool, target + 1 < b.personCount) → find_combination target pool = none) ∧
    (∀ (bks : List BookingRec) (row : SlotRow),
      find_combination (coerce row.test) (unassigned bks) = none →
      processRow bks row = (bks, ⟨row, [], false⟩)) := by
  refine ⟨fun target pool hT => find_combination_none_iff hT, ?_, ?_, ?_⟩
  · intro target
    rw [find_combination_eq_tryTargets]
    exact tryTargets_nil_pool (targets_to_try target)
  · intro target pool h
    rw [find_combination_eq_tryTargets]
    have hnil : (pool.filter fun b => b.personCount ≤ target + 1) = [] := by
      rw [List.filter_eq_nil_iff]
      intro b hb
      have := h b hb
      simp only [decide_eq_true_eq]
      omega
    rw [hnil]
    exact tryTargets_nil_pool (targets_to_try target)
  · intro bks row h
    unfold processRow
    by_cases ht : coerce row.test ≤ 0
    · rw [if_pos ht]
    · rw [if_neg ht, h]

/-- Witness for C8 at concrete inputs: the amended characterisation at
target `6` over the pool `[(id 0, 9 persons)]`, `none` on the empty pool,
`none` when every headcount exceeds `target + 1`, and the driver leaving a
slot unfilled when the finder returns `none`. -/
theorem claim_C8_witness :
    (find_combination 6 [⟨0, 9, .notAllocated, none⟩] = none ↔
      ∀ t ∈ targets_to_try 6,
        ¬ achievable t ([(⟨0, 9, .notAllocated, none⟩ : BookingRec)].filter
          fun b => 0 ≤ b.personCount)) ∧
    find_combination 6 [] = none ∧
    find_combination 6 [⟨0, 9, .notAllocated, none⟩] = none ∧
    processRow [] ⟨CellValue.num 6, 1⟩ = ([], ⟨⟨CellValue.num 6, 1⟩, [], false⟩) :=
  ⟨claim_C8.1 6 [⟨0, 9, .notAllocated, none⟩] (by decide),
   claim_C8.2.1 6,
   claim_C8.2.2.1 6 [⟨0, 9, .notAllocated, none⟩] (by decide),
   claim_C8.2.2.2 [] ⟨CellValue.num 6, 1⟩ (by decide)⟩

/-- C3: single-use invariant.  In every run of the driver, the list of all
booking ids recorded in matched booking references — across all slots of all
sheets, in commit order — has no duplicate, so each booking id appears in
the references of at most one slot (and at most once in that slot). -/
theorem claim_C3 (cells : List CellValue) (sheets : List SheetInput) :
    (runRefIds (processAllocation cells sheets).outputs).Nodup :=
  (processSheets_refs sheets (initBookings_idx_nodup cells)).1

/-- C4: greedy irrevocability.  Processing is strictly in sheet order and
row order: the outcome of a list of rows (or sheets) followed by more is the
outcome of the prefix, with its results unchanged, continued from the state
the prefix left behind — so a committed slot's allocation is never revisited
when later rows or sheets are processed.  Moreover an allocated booking
record (status and allotted dhaja included) survives unchanged into the
final state of any extended run: a booking consumed by an earlier slot is
never reassigned later. -/
theorem claim_C4 :
    (∀ (bks : List BookingRec) (r₁ r₂ : List SlotRow),
      processRows bks (r₁ ++ r₂) =
        ((processRows (processRows bks r₁).1 r₂).1,
         (processRows bks r₁).2 ++ (processRows (processRows bks r₁).1 r₂).2)) ∧
    (∀ (bks : List BookingRec) (s₁ s₂ : List SheetInput),
      processSheets bks (s₁ ++ s₂) =
        ⟨(processSheets (processSheets bks s₁).bookings s₂).bookings,
         (processSheets bks s₁).outputs ++
           (processSheets (processSheets bks s₁).bookings s₂).outputs,
         (processSheets bks s₁).warnings ++
           (processSheets (processSheets bks s₁).bookings s₂).warnings⟩) ∧
    (∀ (cells : List CellValue) (s₁ s₂ : List SheetInput) (b : BookingRec),
      b ∈ (processAllocation cells s₁).bookings → b.status = .allocated →
      b ∈ (processAllocation cells (s₁ ++ s₂)).bookings) := by
  refine ⟨fun bks r₁ r₂ => processRows_append r₁ r₂ bks,
    fun bks s₁ s₂ => processSheets_append s₁ s₂ bks, ?_⟩
  intro cells s₁ s₂ b hb hst
  show b ∈ (processSheets (initBookings cells) (s₁ ++ s₂)).bookings
  rw [processSheets_append]
  exact processSheets_preserve_allocated s₂
    (processSheets_idx_nodup s₁ (initBookings_idx_nodup cells)) hb hst

/-- Witness for C4 at a concrete input: a run with one booking of 2 persons
and a first sheet whose slot (target 2, dhaja 9) consumes it; appending a
second sheet whose slot would also fit it exactly leaves the allocated
record — dhaja 9 included — in the final state. -/
theorem claim_C4_witness :
    (⟨0, 2, .allocated, some 9⟩ : BookingRec) ∈
      (processAllocation [CellValue.num 2] [⟨"A", true, [⟨CellValue.num 2, 9⟩]⟩]).bookings ∧
    (⟨0, 2, .allocated, some 9⟩ : BookingRec) ∈
      (processAllocation [CellValue.num 2]
        ([⟨"A", true, [⟨CellValue.num 2, 9⟩]⟩] ++
          [⟨"B", true, [⟨CellValue.num 2, 10⟩]⟩])).bookings :=
  ⟨by decide,
   claim_C4.2.2 [CellValue.num 2] [⟨"A", true, [⟨CellValue.num 2, 9⟩]⟩]
     [⟨"B", true, [⟨CellValue.num 2, 10⟩]⟩] ⟨0, 2, .allocated, some 9⟩
     (by decide) (by decide)⟩

/-- C9: a sheet that is missing the target-bearing `test` column does not
abort the run: its name is reported among the warnings, the sheet is passed
through to the output unmodified, the booking state is untouched by it, and
the remaining sheets are processed exactly as they would have been. -/
theorem claim_C9 (cells : List CellValue) (pre post : List SheetInput)
    (s : SheetInput) (h : s.hasTest = false) :
    processAllocation cells (pre ++ s :: post) =
      ⟨(processSheets (processAllocation cells pre).bookings post).bookings,
       (processAllocation cells pre).outputs ++
         (s.name, .passthrough s.rows) ::
           (processSheets (processAllocation cells pre).bookings post).outputs,
       (processAllocation cells pre).warnings ++
         s.name :: (processSheets (processAllocation cells pre).bookings post).warnings⟩ ∧
    s.name ∈ (processAllocation cells (pre ++ s :: post)).warnings := by
  have hdecomp : processAllocation cells (pre ++ s :: post) =
      ⟨(processSheets (processAllocation cells pre).bookings post).bookings,
       (processAllocation cells pre).outputs ++
         (s.name, .passthrough s.rows) ::
           (processSheets (processAllocation cells pre).bookings post).outputs,
       (processAllocation cells pre).warnings ++
         s.name :: (processSheets (processAllocation cells pre).bookings post).warnings⟩ := by
    show processSheets (initBookings cells) (pre ++ s :: post) = _
    rw [processSheets_append, processSheets_cons_noTest h]
    rfl
  refine ⟨hdecomp, ?_⟩
  rw [hdecomp]
  simp

/-- Witness for C9 at a concrete input: a run whose middle sheet
`"NoTest"` lacks the `test` column decomposes as claimed and reports the
warning. -/
theorem claim_C9_witness :
    (SheetInput.mk "NoTest" false [⟨CellValue.num 3, 1⟩]).hasTest = false ∧
    "NoTest" ∈ (processAllocation []
      ([] ++ SheetInput.mk "NoTest" false [⟨CellValue.num 3, 1⟩] ::
        [⟨"Z", true, []⟩])).warnings :=
  ⟨rfl,
   (claim_C9 [] [] [⟨"Z", true, []⟩]
     (SheetInput.mk "NoTest" false [⟨CellValue.num 3, 1⟩]) rfl).2⟩

/-- C2 counterexample to the claim as stated: in the run with bookings
`[10, -5, 3]` and a single slot of target `6`, the slot ends allocated with
matched sum `3 = 6 - 3`, although the 2-element subset `{10, -5}` of the
pool at that moment sums to `5 = 6 - 1` — so the smallest underfill
achievable by a 1- or 2-element subset of the pool is `d = 1`, and the
recorded sum is none of `target`, `target + 1`, `target - 1`. -/
theorem claim_C2_counterexample :
    (processAllocation [CellValue.num 10, CellValue.num (-5), CellValue.num 3]
        [⟨"S", true, [⟨CellValue.num 6, 101⟩]⟩]).outputs =
      [("S", .processed [⟨⟨CellValue.num 6, 101⟩, [(2, 3)], true⟩])] ∧
    sumRefs ⟨⟨CellValue.num 6, 101⟩, [(2, 3)], true⟩ = 6 - 3 ∧
    achievable (6 - 1)
      (unassigned (initBookings
        [CellValue.num 10, CellValue.num (-5), CellValue.num 3])) ∧
    ¬ ((6 - 3 : Int) = 6 ∨ (6 - 3 : Int) = 6 + 1 ∨ (6 - 3 : Int) = 6 - 1) := by
  refine ⟨by decide, by decide, ?_, by decide⟩
  unfold achievable
  decide

/-- C2 (amended): in every run, every slot that ends allocated has matched
sum equal to `target`, `target + 1`, or `target - d` where `d ≥ 1` is the
smallest underfill achievable by a 1- or 2-element subset of the
non-negative-headcount bookings of the NotAllocated pool at the moment the
slot was processed (negative-headcount bookings, which only arise outside
the spec's data model, are excluded from the reference search space because
the candidate filter can hide their partners from the finder). -/
theorem claim_C2 (cells : List CellValue) (sheets : List SheetInput)
    (i k : Nat) (s : SheetInput) (nm : String) (rs : List SlotResult) (res : SlotResult)
    (hs : sheets[i]? = some s)
    (hout : (processAllocation cells sheets).outputs[i]? = some (nm, .processed rs))
    (hk : rs[k]? = some res)
    (hbooked : res.booked = true) :
    sumRefs res = coerce res.row.test ∨
    sumRefs res = coerce res.row.test + 1 ∨
    (∃ d : Int, 1 ≤ d ∧ sumRefs res = coerce res.row.test - d ∧
      achievable (coerce res.row.test - d)
        ((unassigned (rowsState (stateBeforeSheet cells sheets i) (s.rows.take k))).filter
          fun b => 0 ≤ b.personCount) ∧
      ∀ e : Int, 1 ≤ e → e < d →
        ¬ achievable (coerce res.row.test - e)
          ((unassigned (rowsState (stateBeforeSheet cells sheets i)
            (s.rows.take k))).filter fun b => 0 ≤ b.personCount)) := by
  have hout' : (processSheets (initBookings cells) sheets).outputs[i]? =
      some (nm, .processed rs) := hout
  rw [processSheets_get, hs] at hout'
  simp only [Option.map_some'] at hout'
  have hpair := Option.some.inj hout'
  have h2 := congrArg Prod.snd hpair
  by_cases hT : s.hasTest = true
  · rw [hT] at h2
    simp only [if_true] at h2
    have h3 := (SheetOutput.processed.injEq _ _).mp h2
    rw [← h3] at hk
    rw [processRows_get] at hk
    cases hrow : s.rows[k]? with
    | none =>
      rw [hrow] at hk
      simp at hk
    | some row =>
      rw [hrow] at hk
      simp only [Option.map_some'] at hk
      have hres : res = (processRow (rowsState
          (processSheets (initBookings cells) (sheets.take i)).bookings
          (s.rows.take k)) row).2 := (Option.some.inj hk).symm
      rcases processRow_cases (rowsState
          (processSheets (initBookings cells) (sheets.take i)).bookings
          (s.rows.take k)) row with ⟨-, he⟩ | ⟨-, -, he⟩ | ⟨ms, ht, hfc, he⟩
      · rw [he] at hres
        rw [hres] at hbooked
        simp at hbooked
      · rw [he] at hres
        rw [hres] at hbooked
        simp at hbooked
      · rw [he] at hres
        have hrow_eq : res.row = row := by rw [hres]
        have hsumr : sumRefs res = sumPC ms := by
          rw [hres]
          unfold sumRefs sumPC
          rw [List.map_map]
          rfl
        obtain ⟨t, htmem, hsum, -⟩ := find_combination_shape hfc
        have hbounds := (mem_targets ht).mp htmem
        rw [hrow_eq]
        by_cases h1 : t = coerce row.test
        · left
          rw [hsumr, hsum, h1]
        · by_cases hplus : t = coerce row.test + 1
          · right; left
            rw [hsumr, hsum, hplus]
          · right; right
            refine ⟨coerce row.test - t, by omega, by rw [hsumr, hsum]; omega, ?_, ?_⟩
            · have hach := find_combination_achievable ht hfc
              have harg : coerce row.test - (coerce row.test - t) = sumPC ms := by omega
              rw [harg]
              exact hach
            · intro e he1 he2
              apply find_combination_minimal ht hfc
              · omega
              · omega
              · omega
              · omega
  · rw [Bool.not_eq_true] at hT
    rw [hT] at h2
    simp only [if_false] at h2
    cases h2

/-- Witness for C2 at a concrete run: one booking of 4 persons, one slot of
target 5; the slot is allocated at sum `4 = 5 - 1`, and `d = 1` is the
smallest achievable underfill. -/
theorem claim_C2_witness :
    sumRefs ⟨⟨CellValue.num 5, 11⟩, [(0, 4)], true⟩ = 5 ∨
    sumRefs ⟨⟨CellValue.num 5, 11⟩, [(0, 4)], true⟩ = 5 + 1 ∨
    (∃ d : Int, 1 ≤ d ∧ sumRefs ⟨⟨CellValue.num 5, 11⟩, [(0, 4)], true⟩ = 5 - d ∧
      achievable (5 - d)
        ((unassigned (initBookings [CellValue.num 4])).filter
          fun b => 0 ≤ b.personCount) ∧
      ∀ e : Int, 1 ≤ e → e < d →
        ¬ achievable (5 - e)
          ((unassigned (initBookings [CellValue.num 4])).filter
            fun b => 0 ≤ b.personCount)) :=
  claim_C2 [CellValue.num 4] [⟨"S", true, [⟨CellValue.num 5, 11⟩]⟩] 0 0
    ⟨"S", true, [⟨CellValue.num 5, 11⟩]⟩ "S"
    [⟨⟨CellValue.num 5, 11⟩, [(0, 4)], true⟩]
    ⟨⟨CellValue.num 5, 11⟩, [(0, 4)], true⟩
    (by decide) (by decide) (by decide) (by decide)
